import Mathlib

/-!
# Verification of the RSE18 Python parallel-programming workshop snippets

Shallow embedding of the code in the workshop notebooks:

* `fib` (pure Python and Cython versions, Part 4 notebook): a loop over
  IEEE-754 doubles computing Fibonacci numbers.  Doubles holding
  non-negative integer values are modelled as `ℕ` together with an
  explicit round-to-nearest-even rounding `roundDouble` applied to each
  addition (every value the program produces is a non-negative integer,
  and rounding an integer to 53 significant bits yields an integer).
* `estimate_number_points_in_quarter_circle` (Part 1 notebook): the
  Monte Carlo sampler.  Python floats/reals are modelled as `ℚ`; the
  global random-number-generator state is made explicit as a stream
  `ℕ → ℚ × ℚ` giving the pair drawn by the two `random.uniform(0, 1)`
  calls of each loop iteration.
* the multiprocessing driver (Part 1 notebook): `Pool(16)`, the work
  split `[n / b] * b`, `pool.map` and the final aggregation
  `pi_estimate`.  The aggregation's float true division
  `sum(...) * 4 / number_samples_in_total` is embedded with its IEEE-754
  binary64 semantics: `fdiv` returns the round-to-nearest-even double
  value of the integer quotient (the quotients arising here are far from
  the subnormal and overflow ranges, which are therefore not modelled).
* the MPI broadcast snippet (Part 3 notebook): per-rank buffers as a
  function `ℕ → List ℚ`, with `Bcast` given its MPI collective
  semantics.
-/

/-- Round-to-nearest-even of a non-negative integer to a 53-bit
significand, i.e. the value an IEEE-754 binary64 addition returns when
the exact sum is the integer `x` (no overflow modelled; the theorems
stay far below the overflow threshold). -/
def roundDouble (x : ℕ) : ℕ :=
  if x < 2 ^ 53 then x
  else
    let k := Nat.log2 x - 52
    let q := x / 2 ^ k
    let r := x % 2 ^ k
    let q' := if 2 * r < 2 ^ k then q
              else if 2 ^ k < 2 * r then q + 1
              else if q % 2 = 0 then q else q + 1
    q' * 2 ^ k

/-- The mathematical Fibonacci sequence, `F 0 = 0`, `F 1 = 1`,
`F (k+2) = F (k+1) + F k`. -/
def fibNat : ℕ → ℕ
  | 0 => 0
  | 1 => 1
  | n + 2 => fibNat (n + 1) + fibNat n

/-- One iteration of the loop body `a, b = a + b, a` of `fib`, with the
addition performed in double precision. -/
def fibStep (p : ℕ × ℕ) : ℕ × ℕ :=
  (roundDouble (p.1 + p.2), p.1)

/-- The Python `fib` of the Part 4 notebook:
`a = 0.0; b = 1.0; for i in range(n): a, b = a + b, a; return a`.
`range n` is empty for `n ≤ 0`, so the loop runs `n.toNat` times. -/
def fib (n : ℤ) : ℕ :=
  (fibStep^[n.toNat] (0, 1)).1

/-- The loop of the Cython `fib` (`cdef int i`, `cdef double a`,
`cdef double b`), written as a tail-recursive accumulator loop: the
remaining iteration count, then `a`, then `b`. -/
def fibCyLoop : ℕ → ℕ → ℕ → ℕ
  | 0, a, _ => a
  | k + 1, a, b => fibCyLoop k (roundDouble (a + b)) a

/-- The Cython `fib (int n)` of the Part 4 notebook: same loop as the
Python version, with C `int` argument and loop counter and C `double`
accumulators. -/
def fibCy (n : ℤ) : ℕ :=
  fibCyLoop n.toNat 0 1

/-- Python `int()` applied to a rational: truncation toward zero. -/
def pyInt (q : ℚ) : ℤ :=
  if 0 ≤ q then ⌊q⌋ else ⌈q⌉

/-- The loop of `estimate_number_points_in_quarter_circle`: `rng i` is
the pair `(x, y)` drawn by the two `random.uniform(0, 1)` calls of
iteration `i`; arguments are the remaining iteration count, the index of
the next sample pair to draw, and the accumulated count
`number_trials_in_quarter_circle` (the Python bool `is_in_unit_circle`
is added to the count as `0` or `1`). -/
def estLoop (rng : ℕ → ℚ × ℚ) : ℕ → ℕ → ℕ → ℕ
  | 0, _, acc => acc
  | k + 1, idx, acc =>
      estLoop rng k (idx + 1)
        (acc + if (rng idx).1 * (rng idx).1 + (rng idx).2 * (rng idx).2 ≤ 1 then 1 else 0)

/-- `estimate_number_points_in_quarter_circle(number_estimates)` of the
Part 1 notebook, with the global RNG state made explicit as the sample
stream `rng`: runs `int(number_estimates)` iterations and returns the
count of samples falling inside the quarter circle. -/
def estimate_number_points_in_quarter_circle (number_estimates : ℚ) (rng : ℕ → ℚ × ℚ) : ℕ :=
  estLoop rng (pyInt number_estimates).toNat 0 0

/-- `number_samples_in_total = 10000` from the Part 1 notebook. -/
def number_samples_in_total : ℕ := 10000

/-- `number_parallel_blocks = 16` from the Part 1 notebook. -/
def number_parallel_blocks : ℕ := 16

/-- `pool = Pool(processes=number_parallel_blocks)`: the number of
worker processes the pool is created with. -/
def pool_num_processes : ℕ := number_parallel_blocks

/-- `number_samples_per_worker_task = number_samples_in_total /
number_parallel_blocks` (Python true division, a float). -/
def number_samples_per_worker_task : ℚ :=
  (number_samples_in_total : ℚ) / (number_parallel_blocks : ℚ)

/-- The general shape of line
`number_trials_per_process = [number_samples_per_worker_task] * number_parallel_blocks`:
a Python list of `b` copies of the single value `n / b`. -/
def work_split (n : ℚ) (b : ℕ) : List ℚ :=
  List.replicate b (n / (b : ℚ))

/-- `number_trials_per_process = [number_samples_per_worker_task] * number_parallel_blocks`. -/
def number_trials_per_process : List ℚ :=
  List.replicate number_parallel_blocks number_samples_per_worker_task

/-- `pool.map(estimate_number_points_in_quarter_circle, xs)`: each list
element is handed to a worker process, worker `i` running with its own
RNG state `streams i`; results come back in input order, one per input. -/
def pool_map (streams : ℕ → ℕ → ℚ × ℚ) (xs : List ℚ) : List ℕ :=
  xs.mapIdx fun i x => estimate_number_points_in_quarter_circle x (streams i)

/-- `number_in_unit_circles = pool.map(estimate_number_points_in_quarter_circle,
number_trials_per_process)`. -/
def number_in_unit_circles (streams : ℕ → ℕ → ℚ × ℚ) : List ℕ :=
  pool_map streams number_trials_per_process

/-- `Nat.log2` written with explicit structural fuel so that the kernel
can evaluate it: `log2Fuel f n` is `⌊log2 n⌋` whenever `f ≥ n ≥ 1`. -/
def log2Fuel : ℕ → ℕ → ℕ
  | 0, _ => 0
  | fuel + 1, n => if n < 2 then 0 else log2Fuel fuel (n / 2) + 1

/-- `⌊log2 n⌋` for `n ≥ 1` (and `0` at `0`). -/
def nlog2 (n : ℕ) : ℕ := log2Fuel n n

/-- The binary exponent `⌊log2 (a / b)⌋` of the positive quotient
`a / b`: start from `⌊log2 a⌋ - ⌊log2 b⌋` (off by at most one) and
correct it by testing `2 ^ e ≤ a / b`, written multiplied out over the
integers. -/
def fdivExp (a b : ℕ) : ℤ :=
  if b * 2 ^ ((nlog2 a : ℤ) - (nlog2 b : ℤ)).toNat ≤
      a * 2 ^ (-((nlog2 a : ℤ) - (nlog2 b : ℤ))).toNat
  then (nlog2 a : ℤ) - (nlog2 b : ℤ)
  else (nlog2 a : ℤ) - (nlog2 b : ℤ) - 1

/-- The scale `k` such that `(a / b) / 2 ^ k ∈ [2^52, 2^53)`: the
quotient's units in the last place of the binary64 result. -/
def fdivK (a b : ℕ) : ℤ := fdivExp a b - 52

/-- Numerator of the quotient rescaled by `2 ^ (-k)`. -/
def fdivN (a b : ℕ) : ℕ := a * 2 ^ (-(fdivK a b)).toNat

/-- Denominator of the quotient rescaled by `2 ^ (-k)`. -/
def fdivD (a b : ℕ) : ℕ := b * 2 ^ (fdivK a b).toNat

/-- Round the non-negative fraction `N / D` to the nearest integer,
ties to even — IEEE-754's default rounding of an exact quotient to an
integral significand. -/
def roundHalfEven (N D : ℕ) : ℕ :=
  if 2 * (N % D) < D then N / D
  else if D < 2 * (N % D) then N / D + 1
  else if (N / D) % 2 = 0 then N / D else N / D + 1

/-- The 53-bit significand of the binary64 quotient `a / b`. -/
def fdivM (a b : ℕ) : ℕ := roundHalfEven (fdivN a b) (fdivD a b)

/-- Python float true division of the non-negative integers `a` and
`b`: the round-to-nearest-even binary64 value of `a / b`.  The zero
divisor (a `ZeroDivisionError` in Python) does not occur in the program
and is mapped to `0`; subnormal and overflowing quotients are outside
the program's range and not modelled. -/
def fdiv (a b : ℕ) : ℚ :=
  if a = 0 ∨ b = 0 then 0 else (fdivM a b : ℚ) * (2 : ℚ) ^ fdivK a b

/-- `pi_estimate = sum(number_in_unit_circles) * 4 / number_samples_in_total`:
the integer arithmetic `sum(...) * 4` is exact, the division is Python
float true division, i.e. correctly rounded binary64 division. -/
def pi_estimate (streams : ℕ → ℕ → ℚ × ℚ) : ℚ :=
  fdiv ((number_in_unit_circles streams).sum * 4) number_samples_in_total

/-- A concrete RNG state whose uniform draws all return `0`: every
sample lands inside the quarter circle. -/
def rngLow : ℕ → ℚ × ℚ := fun _ => (0, 0)

/-- A concrete RNG state whose uniform draws all return `1`: every
sample lands outside the quarter circle (`1 + 1 > 1`). -/
def rngHigh : ℕ → ℚ × ℚ := fun _ => (1, 1)

/-- A concrete RNG state agreeing with `rngLow` on its first two draws
and differing afterwards. -/
def rngMix : ℕ → ℚ × ℚ := fun i => if i < 2 then (0, 0) else (1, 1)

/-- An RNG state whose first pair lands inside the quarter circle and
whose every later pair lands outside: a worker using it counts 1. -/
def sOne : ℕ → ℚ × ℚ := fun i => if i = 0 then (0, 0) else (1, 1)

/-- Per-worker RNG states under which worker 0 counts exactly one hit
and every other worker counts none, so the counts sum to 1. -/
def streamsCex : ℕ → ℕ → ℚ × ℚ := fun w => if w = 0 then sOne else rngHigh

/-- The loop of `estimate_number_points_in_quarter_circle` under the
fallible-call model: `sample j` is the result of the j-th
`random.uniform(0, 1)` call (two per iteration), either a value or a
raised error.  The Python body has no exception handler, so a raised
error aborts the loop and propagates unchanged. -/
def estLoopE (sample : ℕ → Except String ℚ) : ℕ → ℕ → ℕ → Except String ℕ
  | 0, _, acc => .ok acc
  | k + 1, idx, acc =>
    match sample idx with
    | .error e => .error e
    | .ok x =>
      match sample (idx + 1) with
      | .error e => .error e
      | .ok y => estLoopE sample k (idx + 2) (acc + if x * x + y * y ≤ 1 then 1 else 0)

/-- `estimate_number_points_in_quarter_circle` under the fallible-call
model: `toInt` is the result of `int(number_estimates)` (which raises on
a malformed argument) and `sample` the stream of `random.uniform`
results; the function installs no handler around either. -/
def estimateE (toInt : Except String ℤ) (sample : ℕ → Except String ℚ) : Except String ℕ :=
  match toInt with
  | .error e => .error e
  | .ok m => estLoopE sample m.toNat 0 0

/-- `fib` under the fallible-call model: `rangeRes` is the result of the
`range(n)` call (which raises `TypeError` on a non-integer argument);
the function installs no handler around it. -/
def fibE (rangeRes : Except String ℕ) : Except String ℕ :=
  match rangeRes with
  | .error e => .error e
  | .ok n => .ok (fibStep^[n] (0, 1)).1

/-- A sample stream whose very first `random.uniform` call raises. -/
def sampleErr : ℕ → Except String ℚ := fun _ => .error "boom"

/-- `np.arange(n, dtype=np.float64)`: the array `[0.0, 1.0, ..., n-1]`. -/
def np_arange (n : ℕ) : List ℚ := (List.range n).map (fun i => (i : ℚ))

/-- Per-rank buffers before the broadcast in the Part 3 snippet: rank 0
holds `np.arange(5)`; every other rank holds `np.empty(5)`, i.e.
uninitialized contents modelled by the arbitrary memory `mem`. -/
def bcast_init (mem : ℕ → List ℚ) : ℕ → List ℚ :=
  fun r => if r = 0 then np_arange 5 else mem r

/-- `comm.Bcast([A, MPI.DOUBLE])` with root 0 on a communicator of
`size` processes: the MPI collective replaces the buffer of every member
of the group (the ranks `r < size`) with the root's buffer. -/
def mpi_Bcast (size : ℕ) (bufs : ℕ → List ℚ) : ℕ → List ℚ :=
  fun r => if r < size then bufs 0 else bufs r

/-- The per-rank buffers after the Part 3 snippet runs its broadcast on
a communicator of `size` processes. -/
def bcast_final (size : ℕ) (mem : ℕ → List ℚ) : ℕ → List ℚ :=
  mpi_Bcast size (bcast_init mem)

/-! ## Helper lemmas -/

theorem roundDouble_of_lt {x : ℕ} (h : x < 2 ^ 53) : roundDouble x = x := by
  unfold roundDouble
  rw [if_pos h]

/-- Loop invariant of `fib`: after `n` iterations the accumulator pair
holds `(F n, F (n-1))` (with the initial `b = 1` in place of `F (-1)`),
provided every Fibonacci number produced so far is exactly representable. -/
theorem fib_iterate_eq (n : ℕ) (h : ∀ k : ℕ, k ≤ n → roundDouble (fibNat k) = fibNat k) :
    fibStep^[n] (0, 1) = (fibNat n, if n = 0 then 1 else fibNat (n - 1)) := by
  induction n with
  | zero => rfl
  | succ m ih =>
    have hm : ∀ k : ℕ, k ≤ m → roundDouble (fibNat k) = fibNat k :=
      fun k hk => h k (Nat.le_succ_of_le hk)
    rw [Function.iterate_succ_apply', ih hm]
    cases m with
    | zero =>
      have h1 : roundDouble (fibNat 1) = fibNat 1 := h 1 (by omega)
      simp [fibNat] at h1
      simp [fibStep, fibNat, h1]
    | succ l =>
      have h2 : roundDouble (fibNat (l + 2)) = fibNat (l + 2) := h (l + 2) (Nat.le_refl _)
      rw [show fibNat (l + 2) = fibNat (l + 1) + fibNat l from rfl] at h2
      simp [fibStep, fibNat, h2]

theorem fibCyLoop_eq_iterate : ∀ (k a b : ℕ), fibCyLoop k a b = (fibStep^[k] (a, b)).1 := by
  intro k
  induction k with
  | zero => intro a b; rfl
  | succ m ih =>
    intro a b
    rw [Function.iterate_succ_apply]
    exact ih (roundDouble (a + b)) a

/-- Each loop iteration adds `0` or `1` to the count, so the count grows
by at most the number of iterations. -/
theorem estLoop_le (rng : ℕ → ℚ × ℚ) :
    ∀ (k idx acc : ℕ), estLoop rng k idx acc ≤ acc + k := by
  intro k
  induction k with
  | zero => intro idx acc; simp [estLoop]
  | succ m ih =>
    intro idx acc
    simp only [estLoop]
    set c := (if (rng idx).1 * (rng idx).1 + (rng idx).2 * (rng idx).2 ≤ 1 then (1 : ℕ) else 0)
      with hc
    have hc1 : c ≤ 1 := by rw [hc]; split <;> omega
    have h2 := ih (idx + 1) (acc + c)
    omega

/-- The loop only looks at the sample pairs at indices `idx, ..., idx+k-1`. -/
theorem estLoop_congr (r1 r2 : ℕ → ℚ × ℚ) :
    ∀ (k idx acc : ℕ), (∀ i, idx ≤ i → i < idx + k → r1 i = r2 i) →
      estLoop r1 k idx acc = estLoop r2 k idx acc := by
  intro k
  induction k with
  | zero => intro idx acc _; rfl
  | succ m ih =>
    intro idx acc h
    have hidx : r1 idx = r2 idx := h idx (Nat.le_refl idx) (by omega)
    simp only [estLoop, hidx]
    exact ih (idx + 1) _ (fun i h1 h2 => h i (by omega) (by omega))

theorem pyInt_of_nonneg {q : ℚ} (hq : 0 ≤ q) : pyInt q = ⌊q⌋ := by
  rw [pyInt, if_pos hq]

theorem nspwt_eq_625 : number_samples_per_worker_task = 625 := by
  norm_num [number_samples_per_worker_task, number_samples_in_total, number_parallel_blocks]

theorem pyInt_nspwt : (pyInt number_samples_per_worker_task).toNat = 625 := by
  rw [nspwt_eq_625]; decide

theorem pool_map_length (streams : ℕ → ℕ → ℚ × ℚ) (xs : List ℚ) :
    (pool_map streams xs).length = xs.length := by
  simp [pool_map]

theorem pool_map_getElem (streams : ℕ → ℕ → ℚ × ℚ) (xs : List ℚ) (i : ℕ)
    (h : i < xs.length) :
    (pool_map streams xs)[i]? =
      some (estimate_number_points_in_quarter_circle (xs.get ⟨i, h⟩) (streams i)) := by
  have h' : i < (pool_map streams xs).length := by rw [pool_map_length]; exact h
  rw [List.getElem?_eq_getElem h']
  have hg := List.get_mapIdx xs
    (fun j x => estimate_number_points_in_quarter_circle x (streams j)) i h
  rw [← hg]
  simp [pool_map, List.get_eq_getElem]

/-- Every per-worker count in the Part 1 driver is at most
`int(625.0) = 625`. -/
theorem counts_getD_le (streams : ℕ → ℕ → ℚ × ℚ) (i : ℕ) :
    ((number_in_unit_circles streams)[i]?).getD 0 ≤ 625 := by
  by_cases h : i < number_trials_per_process.length
  · rw [number_in_unit_circles, pool_map_getElem streams number_trials_per_process i h]
    have hmem : number_trials_per_process.get ⟨i, h⟩ ∈
        List.replicate number_parallel_blocks number_samples_per_worker_task :=
      List.get_mem number_trials_per_process i h
    have hx : number_trials_per_process.get ⟨i, h⟩ = number_samples_per_worker_task :=
      List.eq_of_mem_replicate hmem
    rw [hx]
    have hb := estLoop_le (streams i) (pyInt number_samples_per_worker_task).toNat 0 0
    rw [pyInt_nspwt] at hb
    simpa [estimate_number_points_in_quarter_circle, pyInt_nspwt] using hb
  · have h' : ¬ i < (number_in_unit_circles streams).length := by
      rwa [number_in_unit_circles, pool_map_length]
    rw [List.getElem?_eq_none (by omega)]
    simp

theorem counts_length (streams : ℕ → ℕ → ℚ × ℚ) :
    (number_in_unit_circles streams).length = 16 := by
  rw [number_in_unit_circles, pool_map_length, number_trials_per_process,
    List.length_replicate]
  rfl

theorem counts_sum_le (streams : ℕ → ℕ → ℚ × ℚ) :
    (number_in_unit_circles streams).sum ≤ 10000 := by
  have hall : ∀ c ∈ number_in_unit_circles streams, c ≤ 625 := by
    intro c hc
    obtain ⟨i, hi, hci⟩ := List.mem_iff_getElem.mp hc
    have := counts_getD_le streams i
    rw [List.getElem?_eq_getElem hi] at this
    simpa [hci] using this
  have h := List.sum_le_card_nsmul (number_in_unit_circles streams) 625 hall
  rw [counts_length] at h
  simpa using h

theorem estLoop_succ (rng : ℕ → ℚ × ℚ) (k idx acc : ℕ) :
    estLoop rng (k + 1) idx acc =
      estLoop rng k (idx + 1)
        (acc + if (rng idx).1 * (rng idx).1 + (rng idx).2 * (rng idx).2 ≤ 1 then 1 else 0) :=
  rfl

/-- Under the all-outside RNG state every iteration adds `0`. -/
theorem estLoop_rngHigh : ∀ (k idx acc : ℕ), estLoop rngHigh k idx acc = acc := by
  intro k
  induction k with
  | zero => intro idx acc; rfl
  | succ m ih =>
    intro idx acc
    rw [estLoop_succ]
    have h0 : (if (rngHigh idx).1 * (rngHigh idx).1 + (rngHigh idx).2 * (rngHigh idx).2 ≤ 1
        then (1 : ℕ) else 0) = 0 := by
      norm_num [rngHigh]
    rw [h0, Nat.add_zero]
    exact ih (idx + 1) acc

/-- `sOne` lands outside the circle at every index past `0`. -/
theorem estLoop_sOne_pos : ∀ (k idx acc : ℕ), 1 ≤ idx → estLoop sOne k idx acc = acc := by
  intro k
  induction k with
  | zero => intro idx acc _; rfl
  | succ m ih =>
    intro idx acc hidx
    rw [estLoop_succ]
    have h0 : (if (sOne idx).1 * (sOne idx).1 + (sOne idx).2 * (sOne idx).2 ≤ 1
        then (1 : ℕ) else 0) = 0 := by
      have : sOne idx = (1, 1) := by rw [sOne]; rw [if_neg (by omega)]
      rw [this]
      norm_num
    rw [h0, Nat.add_zero]
    exact ih (idx + 1) acc (by omega)

theorem estimate_rngHigh :
    estimate_number_points_in_quarter_circle number_samples_per_worker_task rngHigh = 0 := by
  rw [estimate_number_points_in_quarter_circle, pyInt_nspwt, estLoop_rngHigh]

theorem estimate_sOne :
    estimate_number_points_in_quarter_circle number_samples_per_worker_task sOne = 1 := by
  rw [estimate_number_points_in_quarter_circle, pyInt_nspwt]
  rw [show (625 : ℕ) = 624 + 1 from rfl, estLoop_succ]
  have h1 : (if (sOne 0).1 * (sOne 0).1 + (sOne 0).2 * (sOne 0).2 ≤ 1
      then (1 : ℕ) else 0) = 1 := by
    norm_num [sOne]
  rw [h1, estLoop_sOne_pos 624 (0 + 1) (0 + 1) (by omega)]

/-- The i-th entry of the driver's result list is the estimator run on
`number_samples_per_worker_task` with worker i's RNG state. -/
theorem counts_getElem (streams : ℕ → ℕ → ℚ × ℚ) (i : ℕ) (h : i < 16) :
    (number_in_unit_circles streams)[i]? =
      some (estimate_number_points_in_quarter_circle number_samples_per_worker_task
        (streams i)) := by
  have h' : i < number_trials_per_process.length := by
    rw [number_trials_per_process, List.length_replicate]
    exact h
  rw [number_in_unit_circles, pool_map_getElem streams number_trials_per_process i h']
  have hmem : number_trials_per_process.get ⟨i, h'⟩ ∈
      List.replicate number_parallel_blocks number_samples_per_worker_task :=
    List.get_mem number_trials_per_process i h'
  rw [List.eq_of_mem_replicate hmem]

theorem counts_list_const (rng : ℕ → ℚ × ℚ) :
    number_in_unit_circles (fun _ => rng) =
      List.replicate 16
        (estimate_number_points_in_quarter_circle number_samples_per_worker_task rng) := by
  apply List.ext_getElem?
  intro i
  by_cases h : i < 16
  · rw [counts_getElem (fun _ => rng) i h, List.getElem?_replicate, if_pos h]
  · have h1 : (number_in_unit_circles (fun _ => rng)).length ≤ i := by
      rw [counts_length]; omega
    have h2 : (List.replicate 16
        (estimate_number_points_in_quarter_circle number_samples_per_worker_task
          rng)).length ≤ i := by
      rw [List.length_replicate]; omega
    rw [List.getElem?_eq_none h1, List.getElem?_eq_none h2]

theorem counts_rngHigh_sum :
    (number_in_unit_circles (fun _ => rngHigh)).sum = 0 := by
  rw [counts_list_const rngHigh, estimate_rngHigh]
  simp

theorem counts_streamsCex_sum :
    (number_in_unit_circles streamsCex).sum = 1 := by
  have hlist : number_in_unit_circles streamsCex = 1 :: List.replicate 15 0 := by
    apply List.ext_getElem?
    intro i
    by_cases h : i < 16
    · rw [counts_getElem streamsCex i h]
      cases i with
      | zero =>
        rw [show streamsCex 0 = sOne from rfl, estimate_sOne]
        rfl
      | succ j =>
        rw [show streamsCex (j + 1) = rngHigh from rfl, estimate_rngHigh,
          List.getElem?_cons_succ, List.getElem?_replicate,
          if_pos (by omega : j < 15)]
    · have h1 : (number_in_unit_circles streamsCex).length ≤ i := by
        rw [counts_length]; omega
      have h2 : (1 :: List.replicate 15 (0 : ℕ)).length ≤ i := by
        simp only [List.length_cons, List.length_replicate]; omega
      rw [List.getElem?_eq_none h1, List.getElem?_eq_none h2]
  rw [hlist]
  simp

/-- `log2Fuel` never exceeds the binary length of its argument,
whatever the fuel. -/
theorem log2Fuel_le (f : ℕ) : ∀ (n k : ℕ), n < 2 ^ (k + 1) → log2Fuel f n ≤ k := by
  induction f with
  | zero => intro n k _; exact Nat.zero_le k
  | succ g ih =>
    intro n k hn
    simp only [log2Fuel]
    split
    · exact Nat.zero_le k
    · rename_i hge
      have hk1 : 1 ≤ k := by
        by_contra hcon
        push_neg at hcon
        interval_cases k
        norm_num at hn
        omega
      have hn2 : n / 2 < 2 ^ k := by
        rw [Nat.div_lt_iff_lt_mul (by norm_num : 0 < 2)]
        calc n < 2 ^ (k + 1) := hn
          _ = 2 ^ k * 2 := by rw [pow_succ]
      have h2 := ih (n / 2) (k - 1) (by rw [Nat.sub_add_cancel hk1]; exact hn2)
      omega

theorem nlog2_le_15 {a : ℕ} (ha : a ≤ 40000) : nlog2 a ≤ 15 :=
  log2Fuel_le a a 15 (lt_of_le_of_lt ha (by norm_num))

/-- Round-to-nearest (any tie-breaking) of `N / D` never exceeds an
integer bound on the quotient. -/
theorem roundHalfEven_le (N D M : ℕ) (hD : 0 < D) (h : N ≤ M * D) :
    roundHalfEven N D ≤ M := by
  have hq : N / D ≤ M := by
    have h1 : N / D ≤ M * D / D := Nat.div_le_div_right h
    rwa [Nat.mul_div_cancel M hD] at h1
  have hdm : D * (N / D) + N % D = N := Nat.div_add_mod N D
  have hq1 : 1 ≤ N % D → N / D + 1 ≤ M := by
    intro hr
    have hstep : D * (N / D) + 1 ≤ N := le_trans (Nat.add_le_add_left hr _) (le_of_eq hdm)
    have hNle : N ≤ D * M := by rw [Nat.mul_comm]; exact h
    have hlt : D * (N / D) < D * M := lt_of_lt_of_le (Nat.lt_of_succ_le hstep) hNle
    exact Nat.succ_le_of_lt (Nat.lt_of_mul_lt_mul_left hlt)
  rw [roundHalfEven]
  split
  · exact hq
  · rename_i h2
    split
    · rename_i h3
      exact hq1 (by omega)
    · split
      · exact hq
      · exact hq1 (by omega)

/-- Turn a cross-multiplied integer identity into an equality between a
scaled significand and a rational value. -/
theorem qval_eq (m : ℕ) (k : ℤ) (p q : ℕ) (hq : q ≠ 0)
    (h : m * q * 2 ^ k.toNat = p * 2 ^ (-k).toNat) :
    (m : ℚ) * (2 : ℚ) ^ k = (p : ℚ) / (q : ℚ) := by
  have hq' : ((q : ℚ)) ≠ 0 := Nat.cast_ne_zero.mpr hq
  have hk : ((k.toNat : ℤ)) - (((-k).toNat : ℤ)) = k := by omega
  have h2 : (2 : ℚ) ^ k = (2 : ℚ) ^ (k.toNat : ℤ) / (2 : ℚ) ^ (((-k).toNat : ℤ)) := by
    rw [← zpow_sub₀ (by norm_num : (2 : ℚ) ≠ 0), hk]
  have hcast : (m : ℚ) * q * 2 ^ k.toNat = (p : ℚ) * 2 ^ (-k).toNat := by
    exact_mod_cast congrArg (fun n : ℕ => (n : ℚ)) h
  rw [h2, zpow_natCast, zpow_natCast, ← mul_div_assoc]
  rw [div_eq_div_iff (by positivity) hq']
  linear_combination hcast

/-- The binary64 quotients `(2500 t) / 10000 = t / 4` for `t ≤ 16`,
checked by computing significand and exponent. -/
theorem fdiv_core_cases :
    ∀ t : ℕ, t ≤ 16 →
      fdivM (2500 * t) 10000 * 4 * 2 ^ (fdivK (2500 * t) 10000).toNat =
        t * 2 ^ (-(fdivK (2500 * t) 10000)).toNat := by
  decide

theorem fdiv_mul_2500 (t : ℕ) (h16 : t ≤ 16) :
    fdiv (2500 * t) 10000 = (t : ℚ) / 4 := by
  rcases Nat.eq_zero_or_pos t with rfl | ht
  · rw [fdiv, if_pos (Or.inl (by norm_num))]
    norm_num
  · rw [fdiv, if_neg (by push_neg; exact ⟨Nat.mul_ne_zero (by norm_num) (by omega),
      by norm_num⟩)]
    exact qval_eq (fdivM (2500 * t) 10000) (fdivK (2500 * t) 10000) t 4 (by norm_num)
      (fdiv_core_cases t h16)

theorem fdiv_nonneg (a b : ℕ) : 0 ≤ fdiv a b := by
  rw [fdiv]
  split
  · exact le_refl 0
  · positivity

/-- A binary64 division by 10000 of a numerator at most `4 · 10000`
yields at most 4: the rounded significand stays below the integer bound
`4 · 2^(-k)` because `4` is itself exactly representable. -/
theorem fdiv_le_four (a : ℕ) (ha : a ≤ 40000) : fdiv a 10000 ≤ 4 := by
  rw [fdiv]
  split
  · norm_num
  · have hB : nlog2 10000 = 13 := by decide
    have hlog : nlog2 a ≤ 15 := nlog2_le_15 ha
    have hexp : fdivExp a 10000 ≤ 2 := by
      rw [fdivExp, hB]
      split <;> omega
    have hk : fdivK a 10000 ≤ -50 := by
      rw [fdivK]
      omega
    have hktn : (fdivK a 10000).toNat = 0 := by omega
    have hkneg : fdivK a 10000 = -(((-(fdivK a 10000)).toNat : ℕ) : ℤ) := by omega
    have hD : fdivD a 10000 = 10000 := by
      rw [fdivD, hktn, pow_zero, Nat.mul_one]
    have hMle : fdivM a 10000 ≤ 4 * 2 ^ (-(fdivK a 10000)).toNat := by
      rw [fdivM, hD]
      apply roundHalfEven_le _ _ _ (by norm_num)
      rw [fdivN]
      calc a * 2 ^ (-(fdivK a 10000)).toNat
          ≤ 40000 * 2 ^ (-(fdivK a 10000)).toNat := Nat.mul_le_mul_right _ ha
        _ = 4 * 2 ^ (-(fdivK a 10000)).toNat * 10000 := by ring
    set K := (-(fdivK a 10000)).toNat with hKdef
    calc (fdivM a 10000 : ℚ) * (2 : ℚ) ^ fdivK a 10000
        ≤ ((4 * 2 ^ K : ℕ) : ℚ) * (2 : ℚ) ^ fdivK a 10000 :=
          mul_le_mul_of_nonneg_right (by exact_mod_cast hMle)
            (zpow_nonneg (by norm_num) _)
      _ = 4 := by
          rw [hkneg]
          push_cast
          rw [← zpow_natCast (2 : ℚ) K, mul_assoc,
            ← zpow_add₀ (by norm_num : (2 : ℚ) ≠ 0), add_neg_cancel, zpow_zero, mul_one]

/-- If the first failing `random.uniform` call happens at index `j`
within the calls the loop makes, the loop aborts with exactly that
error. -/
theorem estLoopE_error (sample : ℕ → Except String ℚ) :
    ∀ (k idx acc j : ℕ) (e : String),
      (∀ i, idx ≤ i → i < j → ∃ v, sample i = .ok v) →
      idx ≤ j → j < idx + 2 * k →
      sample j = .error e →
      estLoopE sample k idx acc = .error e := by
  intro k
  induction k with
  | zero => intro idx acc j e _ hj1 hj2 _; omega
  | succ m ih =>
    intro idx acc j e hok hj1 hj2 hj3
    by_cases h0 : j = idx
    · subst h0
      simp only [estLoopE, hj3]
    · obtain ⟨x, hx⟩ := hok idx (Nat.le_refl idx) (by omega)
      by_cases h1 : j = idx + 1
      · subst h1
        simp only [estLoopE, hx, hj3]
      · obtain ⟨y, hy⟩ := hok (idx + 1) (by omega) (by omega)
        simp only [estLoopE, hx, hy]
        exact ih (idx + 2) _ j e (fun i hi1 hi2 => hok i (by omega) hi2) (by omega)
          (by omega) hj3

/-! ## Claims -/

/-- C2: `fib` is a Fibonacci function: whenever every Fibonacci number
the double-precision arithmetic produces along the way (i.e. `F k` for
`k ≤ n`) is exactly representable — rounding it to a double is the
identity — `fib n` returns the n-th Fibonacci number `F n` with
`F 0 = 0`, `F 1 = 1`, `F k = F (k-1) + F (k-2)`; and for every `n ≤ 0`
the loop body never executes and `fib n` returns `0`. -/
theorem C2_fib_correct :
    (∀ n : ℤ, (∀ k : ℕ, k ≤ n.toNat → roundDouble (fibNat k) = fibNat k) →
      fib n = fibNat n.toNat) ∧
    (∀ n : ℤ, n ≤ 0 → fib n = 0) := by
  constructor
  · intro n h
    rw [fib, fib_iterate_eq n.toNat h]
  · intro n hn
    have : n.toNat = 0 := Int.toNat_of_nonpos hn
    rw [fib, this]
    rfl

theorem C2_fib_correct_witness :
    fib 10 = fibNat 10 ∧ fib (-3) = 0 := by
  constructor
  · have h10 := C2_fib_correct.1 10 (by decide)
    exact h10
  · exact C2_fib_correct.2 (-3) (by decide)

/-- C8: the statically typed Cython `fib` is behaviorally equivalent to
the pure-Python `fib`: for every integer `n` representable as a C `int`,
the Cython version returns the same value as the Python version, and for
`n ≤ 0` both return `0` (empty loop). -/
theorem C8_cython_fib_equiv :
    ∀ n : ℤ, -(2 ^ 31) ≤ n → n < 2 ^ 31 →
      fibCy n = fib n ∧ (n ≤ 0 → fibCy n = 0) := by
  intro n _ _
  have key : fibCy n = fib n := by
    rw [fibCy, fib, fibCyLoop_eq_iterate]
  refine ⟨key, fun hn => ?_⟩
  rw [key, fib, Int.toNat_of_nonpos hn]
  rfl

theorem C8_cython_fib_equiv_witness :
    fibCy 20 = fib 20 ∧ fibCy (-7) = 0 :=
  ⟨(C8_cython_fib_equiv 20 (by decide) (by decide)).1,
   (C8_cython_fib_equiv (-7) (by decide) (by decide)).2 (by decide)⟩

/-- C1 counterexample: the estimator is not a pure function of its
argument — it reads the global random-number-generator state.  Under two
different concrete RNG states (`rngLow`, `rngHigh`) two runs on the same
input `1` return different results (`1` and `0`), so the result depends
on state outside the function's arguments and locals. -/
theorem C1_not_pure_counterexample :
    estimate_number_points_in_quarter_circle 1 rngLow ≠
      estimate_number_points_in_quarter_circle 1 rngHigh := by
  norm_num [estimate_number_points_in_quarter_circle, estLoop, pyInt, rngLow, rngHigh]

/-- C1 (amended): the estimator reads (and advances) the global RNG
state, so it is deterministic only relative to it: two runs on the same
input `number_estimates` return equal results whenever the RNG supplies
the same values to the `int(number_estimates)` loop iterations' uniform
draws — the result depends on nothing else. -/
theorem C1_deterministic_given_rng :
    ∀ (x : ℚ) (r1 r2 : ℕ → ℚ × ℚ),
      (∀ i, i < (pyInt x).toNat → r1 i = r2 i) →
      estimate_number_points_in_quarter_circle x r1 =
        estimate_number_points_in_quarter_circle x r2 := by
  intro x r1 r2 h
  exact estLoop_congr r1 r2 (pyInt x).toNat 0 0 (fun i _ h2 => h i (by omega))

theorem C1_deterministic_given_rng_witness :
    estimate_number_points_in_quarter_circle 2 rngLow =
      estimate_number_points_in_quarter_circle 2 rngMix := by
  apply C1_deterministic_given_rng 2 rngLow rngMix
  decide

/-- C3: no function in the repository handles failures itself; an error
raised by an operation it calls propagates unchanged.  For the Monte
Carlo estimator: a failing `int(number_estimates)` conversion, or the
first failing `random.uniform` call among those the loop performs,
aborts the function with exactly that error.  For `fib`: a failing
`range(n)` call aborts the function with exactly that error. -/
theorem C3_error_propagation :
    (∀ (e : String) (sample : ℕ → Except String ℚ),
      estimateE (.error e) sample = .error e) ∧
    (∀ (m : ℤ) (sample : ℕ → Except String ℚ) (j : ℕ) (e : String),
      (∀ i, i < j → ∃ v, sample i = .ok v) → j < 2 * m.toNat →
      sample j = .error e → estimateE (.ok m) sample = .error e) ∧
    (∀ e : String, fibE (.error e) = .error e) := by
  refine ⟨fun e sample => rfl, ?_, fun e => rfl⟩
  intro m sample j e hok hj hje
  exact estLoopE_error sample m.toNat 0 0 j e (fun i _ h2 => hok i h2) (Nat.zero_le j)
    (by omega) hje

theorem C3_error_propagation_witness :
    estimateE (.ok 1) sampleErr = .error "boom" :=
  C3_error_propagation.2.1 1 sampleErr 0 "boom"
    (fun i hi => absurd hi (Nat.not_lt_zero i)) (by decide) rfl

/-- C4: the estimator's result is a single scalar count: for every
non-negative input `x` the returned value is one integer `c` with
`0 ≤ c ≤ ⌊x⌋` (the count starts at `0` and each of the `⌊x⌋` loop
iterations adds `0` or `1`). -/
theorem C4_scalar_count :
    ∀ (x : ℚ) (rng : ℕ → ℚ × ℚ), 0 ≤ x →
      (0 : ℤ) ≤ (estimate_number_points_in_quarter_circle x rng : ℤ) ∧
      (estimate_number_points_in_quarter_circle x rng : ℤ) ≤ ⌊x⌋ := by
  intro x rng hx
  refine ⟨Int.ofNat_nonneg _, ?_⟩
  have h1 : estimate_number_points_in_quarter_circle x rng ≤ (pyInt x).toNat := by
    simpa [estimate_number_points_in_quarter_circle] using
      estLoop_le rng (pyInt x).toNat 0 0
  have h2 : pyInt x = ⌊x⌋ := pyInt_of_nonneg hx
  have h3 : 0 ≤ ⌊x⌋ := Int.floor_nonneg.mpr hx
  calc (estimate_number_points_in_quarter_circle x rng : ℤ)
      ≤ ((pyInt x).toNat : ℤ) := by exact_mod_cast h1
    _ = pyInt x := Int.toNat_of_nonneg (h2 ▸ h3)
    _ = ⌊x⌋ := h2

theorem C4_scalar_count_witness :
    (0 : ℤ) ≤ (estimate_number_points_in_quarter_circle 3 rngLow : ℤ) ∧
      (estimate_number_points_in_quarter_circle 3 rngLow : ℤ) ≤ ⌊(3 : ℚ)⌋ :=
  C4_scalar_count 3 rngLow (by decide)

/-- C5: the worker pool executes every submitted task and returns every
result: the pool is created with a fixed size of
`number_parallel_blocks = 16` worker processes, and `pool.map` applied
to `estimate_number_points_in_quarter_circle` and a list of inputs
returns a list with exactly one result per input — its length equals the
input list's length, and its i-th element is the estimator's result for
the i-th input (computed in worker `i`'s process with that worker's RNG
state). -/
theorem C5_pool_map_complete :
    pool_num_processes = 16 ∧
    ∀ (streams : ℕ → ℕ → ℚ × ℚ) (xs : List ℚ),
      (pool_map streams xs).length = xs.length ∧
      ∀ (i : ℕ) (h : i < xs.length),
        (pool_map streams xs)[i]? =
          some (estimate_number_points_in_quarter_circle (xs.get ⟨i, h⟩) (streams i)) :=
  ⟨rfl, fun streams xs =>
    ⟨pool_map_length streams xs, fun i h => pool_map_getElem streams xs i h⟩⟩

theorem C5_pool_map_complete_witness :
    (pool_map (fun _ => rngLow) [3, 1])[1]? =
      some (estimate_number_points_in_quarter_circle ([3, 1].get ⟨1, by decide⟩) rngLow) :=
  (C5_pool_map_complete.2 (fun _ => rngLow) [3, 1]).2 1 (by decide)

/-- C6 counterexample: the aggregation equation does not hold exactly —
the source's `sum(...) * 4 / number_samples_in_total` is float true
division, which rounds to the nearest binary64 value.  Under concrete
RNG states making the counts sum to 1, the stored `pi_estimate` is the
double nearest to `1/2500`, which is not `4 · 1 / 10000`. -/
theorem C6_exact_equation_counterexample :
    pi_estimate streamsCex ≠
      4 * ((number_in_unit_circles streamsCex).sum : ℚ) / 10000 := by
  rw [pi_estimate, counts_streamsCex_sum]
  have h1 : fdiv (1 * 4) number_samples_in_total =
      (7378697629483821 : ℚ) * (2 : ℚ) ^ (-(64 : ℤ)) := by
    rw [show number_samples_in_total = 10000 from rfl]
    rw [fdiv, if_neg (by norm_num)]
    rw [show fdivM (1 * 4) 10000 = 7378697629483821 from by decide,
      show fdivK (1 * 4) 10000 = -64 from by decide]
    norm_cast
  rw [h1]
  norm_num

/-- C6 (amended): `pi_estimate` is the round-to-nearest-even binary64
value of 4 times the sum of the per-worker in-circle counts divided by
`number_samples_in_total = 10000`; the exact aggregation equation holds
whenever that quotient is representable, in particular whenever the sum
is a multiple of 625; and since there are 16 counts, each in `[0, 625]`,
`pi_estimate` always lies in the closed interval `[0, 4]`. -/
theorem C6_aggregation_rounded :
    ∀ streams : ℕ → ℕ → ℚ × ℚ,
      pi_estimate streams =
        fdiv ((number_in_unit_circles streams).sum * 4) 10000 ∧
      (625 ∣ (number_in_unit_circles streams).sum →
        pi_estimate streams =
          4 * ((number_in_unit_circles streams).sum : ℚ) / 10000) ∧
      (number_in_unit_circles streams).length = 16 ∧
      (∀ i : ℕ, ((number_in_unit_circles streams)[i]?).getD 0 ≤ 625) ∧
      0 ≤ pi_estimate streams ∧ pi_estimate streams ≤ 4 := by
  intro streams
  refine ⟨rfl, ?_, counts_length streams, counts_getD_le streams,
    fdiv_nonneg _ _, ?_⟩
  · rintro ⟨t, ht⟩
    have hsum : (number_in_unit_circles streams).sum ≤ 10000 := counts_sum_le streams
    have ht16 : t ≤ 16 := by omega
    rw [pi_estimate, show number_samples_in_total = 10000 from rfl, ht]
    rw [show 625 * t * 4 = 2500 * t from by ring, fdiv_mul_2500 t ht16]
    push_cast
    field_simp
    ring
  · rw [pi_estimate, show number_samples_in_total = 10000 from rfl]
    exact fdiv_le_four _ (by have := counts_sum_le streams; omega)

theorem C6_aggregation_rounded_witness :
    pi_estimate (fun _ => rngHigh) =
      4 * ((number_in_unit_circles (fun _ => rngHigh)).sum : ℚ) / 10000 :=
  (C6_aggregation_rounded (fun _ => rngHigh)).2.1
    (by rw [counts_rngHigh_sum]; exact dvd_zero 625)

/-- C7: the MPI broadcast is a collective operation performed by every
member of the process group: after `comm.Bcast([A, MPI.DOUBLE])`
completes, every process in `MPI.COMM_WORLD` — whatever its rank `r` and
however many processes `size` the script was launched with — holds an
array `A` equal to rank 0's initial array `[0.0, 1.0, 2.0, 3.0, 4.0]`. -/
theorem C7_bcast_collective :
    ∀ (size : ℕ) (mem : ℕ → List ℚ) (r : ℕ), r < size →
      bcast_final size mem r = [0, 1, 2, 3, 4] := by
  intro size mem r hr
  have harange : np_arange 5 = [0, 1, 2, 3, 4] := by
    norm_num [np_arange, List.range_succ]
  simp only [bcast_final, mpi_Bcast, bcast_init, if_pos hr, if_pos rfl]
  simpa using harange

theorem C7_bcast_collective_witness :
    bcast_final 4 (fun _ => []) 2 = [0, 1, 2, 3, 4] :=
  C7_bcast_collective 4 (fun _ => []) 2 (by decide)

/-- C9: the estimator accepts non-integer inputs at its public
interface: for every rational `x ≥ 0` it performs exactly
`int(x) = ⌊x⌋` trials, so its behavior on `x` is identical to its
behavior on `⌊x⌋`; in particular the notebook's driver passes each
worker the non-integer value `625.0` (as
`number_samples_per_worker_task`) and each worker performs exactly
`int(625.0) = 625` trials. -/
theorem C9_truncated_input :
    (∀ (x : ℚ) (rng : ℕ → ℚ × ℚ), 0 ≤ x →
      estimate_number_points_in_quarter_circle x rng =
        estimate_number_points_in_quarter_circle ((⌊x⌋ : ℤ) : ℚ) rng) ∧
    number_samples_per_worker_task = 625 ∧
    (pyInt number_samples_per_worker_task).toNat = 625 := by
  refine ⟨?_, nspwt_eq_625, pyInt_nspwt⟩
  intro x rng hx
  have hfl : (0 : ℚ) ≤ ((⌊x⌋ : ℤ) : ℚ) := by
    have := Int.floor_nonneg.mpr hx
    exact_mod_cast this
  have hsame : pyInt ((⌊x⌋ : ℤ) : ℚ) = pyInt x := by
    rw [pyInt_of_nonneg hx, pyInt_of_nonneg hfl, Int.floor_intCast]
  rw [estimate_number_points_in_quarter_circle, estimate_number_points_in_quarter_circle,
    hsame]

theorem C9_truncated_input_witness :
    estimate_number_points_in_quarter_circle (5 / 2) rngLow =
      estimate_number_points_in_quarter_circle ((⌊(5 / 2 : ℚ)⌋ : ℤ) : ℚ) rngLow :=
  C9_truncated_input.1 (5 / 2) rngLow
    (div_nonneg (by decide : (0 : ℚ) ≤ 5) (by decide : (0 : ℚ) ≤ 2))

/-- C10: the work split preserves the total workload: for every positive
worker count `b` and total sample count `n`, the list
`[n / b] * b` (the shape of `number_trials_per_process`) has length `b`,
all of its entries equal the single value `n / b` (true division,
possibly non-integer), and in exact rational arithmetic the entries sum
to `n`. -/
theorem C10_work_split_total :
    number_trials_per_process =
      work_split (number_samples_in_total : ℚ) number_parallel_blocks ∧
    ∀ (n : ℚ) (b : ℕ), 0 < b →
      (work_split n b).length = b ∧
      (∀ x ∈ work_split n b, x = n / (b : ℚ)) ∧
      (work_split n b).sum = n := by
  refine ⟨rfl, ?_⟩
  intro n b hb
  refine ⟨List.length_replicate _ _, fun x hx => List.eq_of_mem_replicate hx, ?_⟩
  rw [work_split, List.sum_replicate, nsmul_eq_mul]
  have hb' : ((b : ℚ)) ≠ 0 := Nat.cast_ne_zero.mpr (by omega)
  field_simp

theorem C10_work_split_total_witness :
    (work_split 10000 16).length = 16 ∧ (work_split 10000 16).sum = 10000 := by
  have h := C10_work_split_total.2 10000 16 (by decide)
  exact ⟨h.1, h.2.2⟩

example : fib 10 = 55 := by decide
example : fibCy 10 = 55 := by decide
example : fib (-3) = 0 := by decide
example : pyInt (625 : ℚ) = 625 := by decide
example : number_samples_per_worker_task = 625 := by
  norm_num [number_samples_per_worker_task, number_samples_in_total, number_parallel_blocks]
example : estimate_number_points_in_quarter_circle 3 (fun _ => (0, 0)) = 3 := by
  norm_num [estimate_number_points_in_quarter_circle, estLoop, pyInt]
example : estimate_number_points_in_quarter_circle 3 (fun _ => (1, 1)) = 0 := by
  norm_num [estimate_number_points_in_quarter_circle, estLoop, pyInt]
